import Mathlib

/-!
Verification of the dynamic descriptor-to-tool compiler of `src/index.ts`
(repository mcp-adb).  Strings are modelled as lists of characters; each
JavaScript string operation used by the source is embedded as a Lean
function with the same observable behaviour on the inputs the source can
produce.  The dynamic registration pass (lines 149-197 of the source), the
placeholder extraction loop, the type-inference heuristic, the render
closure and the execute-and-wrap helper are all embedded below.
-/

namespace McpAdb

/-- Strings are modelled as lists of characters. -/
abbrev Str := List Char

/-- Coerce a Lean string literal into the model. -/
def str (s : String) : Str := s.data

/-- The character class matched by the JavaScript regex `\s`
(whitespace, as used by `String.prototype.trim` and `replace(/\s/g, _)`). -/
def isWS (c : Char) : Bool :=
  c.val = 0x9 || c.val = 0xA || c.val = 0xB || c.val = 0xC || c.val = 0xD ||
  c.val = 0x20 || c.val = 0xA0 || c.val = 0x1680 ||
  (0x2000 ≤ c.val && c.val ≤ 0x200A) ||
  c.val = 0x2028 || c.val = 0x2029 || c.val = 0x202F || c.val = 0x205F ||
  c.val = 0x3000 || c.val = 0xFEFF

/-- JavaScript `s.trim()`: drop whitespace from both ends. -/
def jsTrim (s : Str) : Str :=
  ((s.dropWhile isWS).reverse.dropWhile isWS).reverse

/-- `startsWith s pat`: `pat` is a prefix of `s` (JS `indexOf _ = 0`). -/
def startsWith : Str → Str → Bool
  | _, [] => true
  | [], _ :: _ => false
  | c :: s, p :: ps => c = p && startsWith s ps

/-- `pat` is a suffix of `s` (JS `endsWith`). -/
def endsWithStr (s pat : Str) : Bool := startsWith s.reverse pat.reverse

/-- JavaScript `s.replace(pat, repl)` with a plain-string pattern:
replace the leftmost occurrence of `pat` only (used at line 171 of the
source for stripping the `param name` marker). -/
def replaceFirst : Str → Str → Str → Str
  | [], pat, repl => if startsWith [] pat then repl else []
  | c :: r, pat, repl =>
    if startsWith (c :: r) pat then repl ++ (c :: r).drop pat.length
    else c :: replaceFirst r pat repl

/-- Fuel-driven worker for `replaceAll`; the fuel is an upper bound on the
number of characters still to be consumed, so `replaceAll` below never
exhausts it. -/
def replaceAllF : Nat → Str → Str → Str → Str
  | 0, s, _, _ => s
  | _ + 1, [], _, _ => []
  | n + 1, c :: r, pat, repl =>
    if !pat.isEmpty && startsWith (c :: r) pat then
      repl ++ replaceAllF n ((c :: r).drop pat.length) pat repl
    else c :: replaceAllF n r pat repl

/-- JavaScript `s.split(pat).join(repl)` for a non-empty `pat` (line 187 of
the source): replace every leftmost non-overlapping occurrence of `pat`.
The source only calls this with patterns of the shape
angle-bracket + original + angle-bracket, which are never empty. -/
def replaceAll (s pat repl : Str) : Str := replaceAllF s.length s pat repl

/-- JS `s.replace(/\s/g, "_")`. -/
def wsToUnderscore (s : Str) : Str := s.map (fun c => if isWS c then '_' else c)

/-- JS `s.replace(/:/g, "_")`. -/
def colonToUnderscore (s : Str) : Str := s.map (fun c => if c = ':' then '_' else c)

/-- JS `s.replace(/_/g, " ")` (parameter label construction, line 179). -/
def underscoreToSpace (s : Str) : Str := s.map (fun c => if c = '_' then ' ' else c)

/-- JS global replacement of every hyphen with an underscore
(tool-name construction, line 158). -/
def hyphenToUnderscore (s : Str) : Str := s.map (fun c => if c = '-' then '_' else c)

/-- The literal marker stripped from placeholder texts (line 171). -/
def paramNameMarker : Str := str "param name"

/-- Line 171 of the source: canonical identifier of a raw placeholder
text: strip the first occurrence of `param name`, trim, replace
whitespace with underscores, replace colons with underscores. -/
def normalize (original : Str) : Str :=
  colonToUnderscore (wsToUnderscore (jsTrim (replaceFirst original paramNameMarker [])))

/-- State machine equivalent to one global scan of the JavaScript regex
for an angle-bracket placeholder (open bracket, one or more
non-closing-bracket characters, close bracket): collect every captured
group.  The second argument is `none` outside a candidate match and
`some buf` after an opening bracket, `buf` holding the (non-closing)
characters read since. -/
def extractAux : Str → Option Str → List Str
  | [], _ => []
  | c :: rest, none =>
    if c = '<' then extractAux rest (some []) else extractAux rest none
  | c :: rest, some buf =>
    if c = '>' then
      if buf.isEmpty then extractAux rest none
      else buf :: extractAux rest none
    else extractAux rest (some (buf ++ [c]))

/-- All captured groups of the global placeholder regex over the prompt,
in match order (lines 167-173 of the source). -/
def extractTokens (s : Str) : List Str := extractAux s none

/-- State machine equivalent to the global regex replacement at line 190
of the source: delete every angle-bracket placeholder, keep everything
else.  Same scan discipline as `extractAux`. -/
def stripAux : Str → Option Str → Str
  | [], none => []
  | [], some buf => '<' :: buf
  | c :: rest, none =>
    if c = '<' then stripAux rest (some [])
    else c :: stripAux rest none
  | c :: rest, some buf =>
    if c = '>' then
      if buf.isEmpty then '<' :: '>' :: stripAux rest none
      else stripAux rest none
    else stripAux rest (some (buf ++ [c]))

/-- Delete every angle-bracket placeholder substring (line 190). -/
def stripPH (s : Str) : Str := stripAux s none

/-- The character class of the placeholder body: anything but the
closing bracket. -/
def notGT (d : Char) : Bool := d ≠ '>'

/-- Whether the placeholder regex matches at the very start of `s`
(one or more non-closing-bracket characters, then a closing bracket),
given that an opening bracket stands just before `s`. -/
def matchesAt (s : Str) : Bool :=
  !(s.takeWhile notGT).isEmpty && !(s.dropWhile notGT).isEmpty

/-- Whether the placeholder regex matches anywhere in `s`. -/
def hasPH : Str → Bool
  | [] => false
  | c :: r => (c = '<' && matchesAt r) || hasPH r

/-- `s` contains no placeholder substring: every decomposition around an
opening bracket fails to be a placeholder (empty body or a closing
bracket inside the body). -/
def NoPlaceholder (s : Str) : Prop :=
  ∀ a w b, s = a ++ '<' :: (w ++ '>' :: b) → w = [] ∨ '>' ∈ w

/-- The literal line marker matched by the example-execution regex
(line 162 of the source). -/
def execMarker : Str := str "Example execution: "

/-- The character class of the JavaScript regex `.` (anything except the
line terminators). -/
def notNL (c : Char) : Bool :=
  c ≠ '\n' && c ≠ '\r' && c.val ≠ 0x2028 && c.val ≠ 0x2029

/-- First match of the example-execution regex over the prompt: the
leftmost occurrence of the marker followed by at least one
non-line-terminator character; the captured group is the maximal such
run (line 162 of the source). -/
def findExec : Str → Option Str
  | [] => none
  | c :: r =>
    if startsWith (c :: r) execMarker then
      let cap := ((c :: r).drop execMarker.length).takeWhile notNL
      if cap.isEmpty then findExec r else some cap
    else findExec r

/-- JavaScript `Map.set` on an association list: overwrite the value in
place if the key is present, else append at the end (insertion order is
preserved, as for a JS `Map`). -/
def mapSet (m : List (Str × Str)) (k v : Str) : List (Str × Str) :=
  match m with
  | [] => [(k, v)]
  | (k', v') :: rest => if k' = k then (k, v) :: rest else (k', v') :: mapSet rest k v

/-- Lookup in an association list (JS `Map.get` / property access). -/
def mapLookup : List (Str × Str) → Str → Option Str
  | [], _ => none
  | (k, v) :: r, key => if k = key then some v else mapLookup r key

/-- Lines 166-173 of the source: run the placeholder regex over the whole
prompt and build the parameter map, keyed by canonical identifier, the
value being the raw original text; empty canonical identifiers are
discarded.  `Map.set` overwrites, so a later original with the same
canonical identifier replaces an earlier one. -/
def buildParamMap (prompt : Str) : List (Str × Str) :=
  (extractTokens prompt).foldl
    (fun m original =>
      let clean := normalize original
      if clean.isEmpty then m else mapSet m clean original)
    []

/-- The fixed, case-sensitive numeric keyword list (line 176). -/
def numberKeywords : List Str :=
  [str "level", str "port", str "duration", str "limit", str "brightness",
   str "state", str "pid", str "width", str "height", str "seconds",
   str "ms", str "dpi"]

/-- JS `s.includes(pat)`: `pat` occurs as a contiguous substring of `s`. -/
def containsSub : Str → Str → Bool
  | [], pat => startsWith [] pat
  | c :: r, pat => startsWith (c :: r) pat || containsSub r pat

/-- Line 178 of the source: a parameter is numeric when its canonical
identifier or its original raw text contains some numeric keyword as a
substring. -/
def isNumber (clean original : Str) : Bool :=
  numberKeywords.any (fun k => containsSub clean k || containsSub original k)

/-- The two zod shapes used by the source: a number schema or a string
schema. -/
inductive ParamKind where
  | number : ParamKind
  | text : ParamKind
deriving DecidableEq

/-- Line 179: choose the zod schema from the keyword heuristic. -/
def inferKind (clean original : Str) : ParamKind :=
  if isNumber clean original then ParamKind.number else ParamKind.text

/-- A dynamic tool as registered by the source: its name, its zod shape
(canonical identifier, kind, human label, in insertion order), its
parameter map and its command template. -/
structure CompiledTool where
  name : Str
  schema : List (Str × ParamKind × Str)
  paramMap : List (Str × Str)
  template : Str
deriving DecidableEq

/-- Lines 182-189 of the source: walk the parameter map in insertion
order; when the canonical identifier is present in the argument map,
replace every occurrence of the bracketed original text by the supplied
value. -/
def applyArgs (pm : List (Str × Str)) (args : List (Str × Str)) (template : Str) : Str :=
  pm.foldl
    (fun cmd p =>
      match mapLookup args p.1 with
      | some v => replaceAll cmd ('<' :: (p.2 ++ ['>'])) v
      | none => cmd)
    template

/-- The render closure registered at line 182: substitute all supplied
arguments, strip the remaining placeholders, trim. -/
def renderTool (t : CompiledTool) (args : List (Str × Str)) : Str :=
  jsTrim (stripPH (applyArgs t.paramMap args t.template))

/-- Lines 160-192 of the source, for one parsed descriptor: require an
example-execution line (else no tool), take its trimmed capture as the
command template, build the parameter map over the whole prompt, derive
the zod shape. -/
def compileDescriptor (toolName : Str) (prompt : Str) : Option CompiledTool :=
  match findExec prompt with
  | none => none
  | some cap =>
    let pm := buildParamMap prompt
    some ⟨toolName,
          pm.map (fun p => (p.1, inferKind p.1 p.2, underscoreToSpace p.2)),
          pm,
          jsTrim cap⟩

/-- A parsed TOML document, with the two fields the source reads.  A
missing field is `none`; the source treats an empty string the same as a
missing one (JS falsiness). -/
structure TomlDoc where
  description : Option Str
  prompt : Option Str
deriving DecidableEq

/-- One directory entry: its file name, and the outcome of reading and
TOML-parsing it.  `parsed = none` models `toml.parse` (or the file read)
throwing on that entry. -/
structure TomlFile where
  name : Str
  parsed : Option TomlDoc
deriving DecidableEq

/-- JS `v || d` on an optional string field: the field when present and
non-empty, the default otherwise. -/
def jsOr (v : Option Str) (d : Str) : Str :=
  match v with
  | some s => if s.isEmpty then d else s
  | none => d

/-- Node `path.extname`: the suffix from the last dot, empty when there
is no dot or the only leading character is the dot. -/
def extname (s : Str) : Str :=
  let afterDot := (s.reverse.takeWhile (fun c => c ≠ '.')).reverse
  if afterDot.length = s.length then []
  else if afterDot.length + 1 = s.length then []
  else '.' :: afterDot

/-- Node `path.basename(file, ".toml")`: strip the extension when it is a
proper suffix. -/
def basenameToml (n : Str) : Str :=
  if endsWithStr n (str ".toml") && n.length != (str ".toml").length
  then n.take (n.length - 5) else n

/-- Line 158 of the source: tool name from file name. -/
def toolNameOf (n : Str) : Str := hyphenToUnderscore (basenameToml n)

/-- The `for` loop of lines 153-193.  Entries without the `.toml`
extension are skipped.  A parse failure raises out of the loop to the
`catch` at line 195, which wraps the whole loop: the remaining entries
are NOT processed (the error is logged and the process continues).  A
descriptor without an example-execution line compiles to `none` and is
skipped with `continue`. -/
def registerGo : List TomlFile → List CompiledTool
  | [] => []
  | f :: rest =>
    if extname f.name = str ".toml" then
      match f.parsed with
      | none => []
      | some doc =>
        match compileDescriptor (toolNameOf f.name) (jsOr doc.prompt []) with
        | none => registerGo rest
        | some t => t :: registerGo rest
    else registerGo rest

/-- Lines 149-197: the whole dynamic registration pass.  `none` models
`fs.existsSync(commandsDir)` returning false (directory absent): the
loop body is never entered and no error is raised. -/
def registerPass : Option (List TomlFile) → List CompiledTool
  | none => []
  | some files => registerGo files

/-- The MCP result content produced per invocation: the text of the
single content item and the error flag (absent in the source's success
object, which the protocol reads as false). -/
structure ToolResult where
  text : Str
  isError : Bool
deriving DecidableEq

/-- Outcome of the awaited `execPromise` collaborator: either stdout and
stderr, or a thrown error carrying a message and possibly a captured
stderr. -/
inductive ExecOutcome where
  | ok (stdout stderr : Str) : ExecOutcome
  | err (message : Str) (stderr : Option Str) : ExecOutcome
deriving DecidableEq

/-- The fixed sentinel of line 37 of the source. -/
def noOutputMsg : Str := str "Command executed successfully (no output)."

/-- The error-text prefix of line 46 of the source. -/
def errPre : Str := str "Error executing command: "

/-- Lines 30-52 of the source: wrap the collaborator outcome.  Success
favours stdout, falls back to stderr, falls back to the sentinel
(JS `||` on strings: an empty string is falsy).  A thrown error is
caught and becomes an error-flagged result whose text is the prefix,
the message, a newline and the captured stderr (empty when absent).
The function is total: no outcome escapes as an exception. -/
def executeCommandAsTool : ExecOutcome → ToolResult
  | .ok so se =>
    ⟨if !so.isEmpty then so else if !se.isEmpty then se else noOutputMsg, false⟩
  | .err m se =>
    ⟨errPre ++ m ++ '\n' :: se.getD [], true⟩

/-! ### Lemmas about the placeholder stripping pass -/

/-- Unfolding equation for `hasPH` on a non-empty string. -/
theorem hasPH_cons (c : Char) (r : Str) :
    hasPH (c :: r) = ((decide (c = '<') && matchesAt r) || hasPH r) := rfl

/-- `notGT` fails exactly on the closing bracket. -/
theorem notGT_gt : notGT '>' = false := by decide

/-- `notGT` holds on any other character. -/
theorem notGT_of_ne (c : Char) (h : c ≠ '>') : notGT c = true := by
  simp [notGT, h]

/-- A string without a closing bracket contains no placeholder. -/
theorem hasPH_no_gt (l : Str) (h : '>' ∉ l) : hasPH l = false := by
  induction l with
  | nil => rfl
  | cons c r ih =>
    have hr : '>' ∉ r := fun hm => h (List.mem_cons_of_mem _ hm)
    have hdrop : List.dropWhile notGT r = [] := by
      rw [List.dropWhile_eq_nil_iff]
      intro x hx
      exact notGT_of_ne x (fun he => hr (he ▸ hx))
    rw [hasPH_cons, ih hr, matchesAt, hdrop]
    simp

/-- The stripping scan never leaves a placeholder in its output. -/
theorem stripAux_ok (s : Str) :
    hasPH (stripAux s none) = false ∧
    ∀ buf, '>' ∉ buf → hasPH (stripAux s (some buf)) = false := by
  induction s with
  | nil =>
    refine ⟨rfl, ?_⟩
    intro buf hbuf
    show hasPH ('<' :: buf) = false
    have hdrop : List.dropWhile notGT buf = [] := by
      rw [List.dropWhile_eq_nil_iff]
      intro x hx
      exact notGT_of_ne x (fun he => hbuf (he ▸ hx))
    rw [hasPH_cons, hasPH_no_gt buf hbuf, matchesAt, hdrop]
    simp
  | cons c r ih =>
    constructor
    · by_cases hc : c = '<'
      · subst hc
        show hasPH (stripAux r (some [])) = false
        exact ih.2 [] (by simp)
      · have he : stripAux (c :: r) none = c :: stripAux r none := by
          show (if c = '<' then stripAux r (some []) else c :: stripAux r none) = _
          rw [if_neg hc]
        rw [he, hasPH_cons, ih.1]
        simp [hc]
    · intro buf hbuf
      by_cases hgt : c = '>'
      · subst hgt
        by_cases hbe : buf.isEmpty
        · have he : stripAux ('>' :: r) (some buf) = '<' :: '>' :: stripAux r none := by
            show (if ('>' : Char) = '>' then
                (if buf.isEmpty then '<' :: '>' :: stripAux r none else stripAux r none)
              else stripAux r (some (buf ++ ['>']))) = _
            rw [if_pos rfl, if_pos hbe]
          have htw : List.takeWhile notGT ('>' :: stripAux r none) = [] := by
            rw [List.takeWhile_cons, notGT_gt]
            simp
          rw [he, hasPH_cons, hasPH_cons, ih.1, matchesAt, htw]
          simp
        · have he : stripAux ('>' :: r) (some buf) = stripAux r none := by
            show (if ('>' : Char) = '>' then
                (if buf.isEmpty then '<' :: '>' :: stripAux r none else stripAux r none)
              else stripAux r (some (buf ++ ['>']))) = _
            rw [if_pos rfl, if_neg hbe]
          rw [he]
          exact ih.1
      · have hbc : '>' ∉ buf ++ [c] := by
          intro hm
          rcases List.mem_append.1 hm with h1 | h1
          · exact hbuf h1
          · exact hgt (List.mem_singleton.1 h1).symm
        have he : stripAux (c :: r) (some buf) = stripAux r (some (buf ++ [c])) := by
          show (if c = '>' then
              (if buf.isEmpty then '<' :: '>' :: stripAux r none else stripAux r none)
            else stripAux r (some (buf ++ [c]))) = _
          rw [if_neg hgt]
        rw [he]
        exact ih.2 (buf ++ [c]) hbc

/-- The take/drop split of a bracket-free body followed by a closing
bracket. -/
theorem tw_dw_decomp (w b : Str) (hw : '>' ∉ w) :
    List.takeWhile notGT (w ++ '>' :: b) = w ∧
    List.dropWhile notGT (w ++ '>' :: b) = '>' :: b := by
  induction w with
  | nil =>
    constructor
    · rw [List.nil_append, List.takeWhile_cons, notGT_gt]
      simp
    · rw [List.nil_append, List.dropWhile_cons, notGT_gt]
      simp
  | cons x xs ih =>
    have hx : x ≠ '>' := fun he => hw (he ▸ List.mem_cons_self x xs)
    have hxs : '>' ∉ xs := fun hm => hw (List.mem_cons_of_mem _ hm)
    obtain ⟨h1, h2⟩ := ih hxs
    constructor
    · rw [List.cons_append, List.takeWhile_cons, notGT_of_ne x hx]
      rw [if_pos rfl, h1]
    · rw [List.cons_append, List.dropWhile_cons, notGT_of_ne x hx]
      rw [if_pos rfl, h2]

/-- A string that decomposes as a placeholder occurrence is detected by
the matcher. -/
theorem hasPH_of_decomp (a w b : Str) (hw : w ≠ []) (hgt : '>' ∉ w) :
    hasPH (a ++ '<' :: (w ++ '>' :: b)) = true := by
  induction a with
  | nil =>
    cases w with
    | nil => exact absurd rfl hw
    | cons x xs =>
      obtain ⟨h1, h2⟩ := tw_dw_decomp (x :: xs) b hgt
      rw [List.nil_append, hasPH_cons, matchesAt, h1, h2]
      simp
  | cons x xs ih =>
    rw [List.cons_append, hasPH_cons, ih]
    simp

/-- From the Boolean matcher to the decomposition-free statement. -/
theorem noPlaceholder_of_hasPH (s : Str) (h : hasPH s = false) : NoPlaceholder s := by
  intro a w b heq
  by_cases hw : w = []
  · exact Or.inl hw
  · by_cases hgt : '>' ∈ w
    · exact Or.inr hgt
    · exfalso
      have htrue := hasPH_of_decomp a w b hw hgt
      rw [← heq, h] at htrue
      exact Bool.false_ne_true htrue

/-- A contiguous substring of a placeholder-free string is
placeholder-free. -/
theorem noPlaceholder_infix (s t x y : Str) (hs : NoPlaceholder s)
    (he : s = x ++ t ++ y) : NoPlaceholder t := by
  intro a w b ht
  have hdec : s = (x ++ a) ++ '<' :: (w ++ '>' :: (b ++ y)) := by
    rw [he, ht]
    simp [List.append_assoc, List.cons_append]
  exact hs (x ++ a) w (b ++ y) hdec

/-- Trimming only removes characters from the two ends. -/
theorem jsTrim_infix (s : Str) : ∃ x y, s = x ++ jsTrim s ++ y := by
  refine ⟨s.takeWhile isWS, ((s.dropWhile isWS).reverse.takeWhile isWS).reverse, ?_⟩
  have h1 : jsTrim s ++ ((s.dropWhile isWS).reverse.takeWhile isWS).reverse
      = s.dropWhile isWS := by
    simp only [jsTrim, ← List.reverse_append, List.takeWhile_append_dropWhile,
      List.reverse_reverse]
  rw [List.append_assoc, h1, List.takeWhile_append_dropWhile]

/-- If the head of a `dropWhile` output exists, it fails the predicate. -/
theorem head?_dropWhile_not {α : Type} (p : α → Bool) (l : List α) (c : α)
    (hc : (l.dropWhile p).head? = some c) : p c = false := by
  induction l with
  | nil => simp at hc
  | cons x xs ih =>
    rw [List.dropWhile_cons] at hc
    by_cases hp : p x = true
    · rw [if_pos hp] at hc
      exact ih hc
    · rw [if_neg hp] at hc
      have hx : c = x := by
        have := hc
        simp only [List.head?_cons, Option.some.injEq] at this
        exact this.symm
      rw [hx]
      exact Bool.eq_false_iff.2 hp

/-- A non-empty `dropWhile` output keeps the last element of the list. -/
theorem getLast?_dropWhile {α : Type} (p : α → Bool) (l : List α)
    (hne : l.dropWhile p ≠ []) : (l.dropWhile p).getLast? = l.getLast? := by
  induction l with
  | nil => simp at hne
  | cons x xs ih =>
    rw [List.dropWhile_cons]
    rw [List.dropWhile_cons] at hne
    by_cases hp : p x = true
    · rw [if_pos hp] at hne ⊢
      have hxs : xs ≠ [] := by
        intro h
        rw [h] at hne
        simp at hne
      cases xs with
      | nil => exact absurd rfl hxs
      | cons y ys => rw [ih hne, List.getLast?_cons_cons]
    · rw [if_neg hp]

/-- A list whose head (if any) fails the predicate is unchanged by
`dropWhile`. -/
theorem dropWhile_head_fail {α : Type} (p : α → Bool) (l : List α)
    (h : ∀ c, l.head? = some c → p c = false) : l.dropWhile p = l := by
  cases l with
  | nil => rfl
  | cons c cs =>
    rw [List.dropWhile_cons, if_neg]
    rw [h c rfl]
    simp

/-- Trimming is idempotent (hence a trimmed render output really has no
surrounding whitespace). -/
theorem jsTrim_idem (s : Str) : jsTrim (jsTrim s) = jsTrim s := by
  have h1 : (jsTrim s).dropWhile isWS = jsTrim s := by
    apply dropWhile_head_fail
    intro c hc
    have hc2 : ((s.dropWhile isWS).reverse.dropWhile isWS).reverse.head? = some c := hc
    rw [List.head?_reverse] at hc2
    by_cases hne : (s.dropWhile isWS).reverse.dropWhile isWS = []
    · rw [hne] at hc2
      simp at hc2
    · rw [getLast?_dropWhile isWS _ hne, List.getLast?_reverse] at hc2
      exact head?_dropWhile_not isWS s c hc2
  have h2 : (jsTrim s).reverse.dropWhile isWS = (jsTrim s).reverse := by
    apply dropWhile_head_fail
    intro c hc
    have hc2 : ((s.dropWhile isWS).reverse.dropWhile isWS).head? = some c := by
      rw [show (jsTrim s).reverse = (s.dropWhile isWS).reverse.dropWhile isWS from
        List.reverse_reverse _] at hc
      exact hc
    exact head?_dropWhile_not isWS _ c hc2
  calc jsTrim (jsTrim s)
      = (((jsTrim s).dropWhile isWS).reverse.dropWhile isWS).reverse := rfl
    _ = ((jsTrim s).reverse.dropWhile isWS).reverse := by rw [h1]
    _ = (jsTrim s).reverse.reverse := by rw [h2]
    _ = jsTrim s := List.reverse_reverse _

/-- With an empty argument map no substitution fires. -/
theorem applyArgs_nil (pm : List (Str × Str)) (tpl : Str) :
    applyArgs pm [] tpl = tpl := by
  induction pm generalizing tpl with
  | nil => rfl
  | cons p ps ih => exact ih tpl

/-- Every render output is placeholder-free: the stripping pass runs
after all substitutions and the final trim only removes characters from
the ends. -/
theorem render_noPlaceholder (t : CompiledTool) (args : List (Str × Str)) :
    NoPlaceholder (renderTool t args) := by
  have h0 : hasPH (stripPH (applyArgs t.paramMap args t.template)) = false :=
    (stripAux_ok _).1
  have h1 : NoPlaceholder (stripPH (applyArgs t.paramMap args t.template)) :=
    noPlaceholder_of_hasPH _ h0
  obtain ⟨x, y, hxy⟩ := jsTrim_infix (stripPH (applyArgs t.paramMap args t.template))
  exact noPlaceholder_infix _ _ x y h1 hxy

/-! ### Substring characterizations -/

/-- Prefix test characterization. -/
theorem startsWith_iff (s pat : Str) :
    startsWith s pat = true ↔ ∃ y, s = pat ++ y := by
  induction pat generalizing s with
  | nil =>
    constructor
    · intro _
      exact ⟨s, rfl⟩
    · intro _
      cases s <;> rfl
  | cons p ps ih =>
    cases s with
    | nil =>
      constructor
      · intro h
        exact absurd h (by simp [startsWith])
      · rintro ⟨y, hy⟩
        exact absurd hy (by simp)
    | cons c r =>
      rw [show startsWith (c :: r) (p :: ps) = (decide (c = p) && startsWith r ps) from rfl]
      rw [Bool.and_eq_true, decide_eq_true_eq, ih r]
      constructor
      · rintro ⟨hc, y, hy⟩
        exact ⟨y, by rw [hc, hy, List.cons_append]⟩
      · rintro ⟨y, hy⟩
        rw [List.cons_append] at hy
        injection hy with h1 h2
        exact ⟨h1, y, h2⟩

/-- Substring test characterization: JS `includes` finds exactly the
contiguous occurrences. -/
theorem containsSub_iff (s pat : Str) :
    containsSub s pat = true ↔ ∃ x y, s = x ++ pat ++ y := by
  induction s with
  | nil =>
    rw [show containsSub [] pat = startsWith [] pat from rfl, startsWith_iff]
    constructor
    · rintro ⟨y, hy⟩
      exact ⟨[], y, by rw [List.nil_append]; exact hy⟩
    · rintro ⟨x, y, hxy⟩
      rcases List.append_eq_nil.1 hxy.symm with ⟨hxp, hy⟩
      rcases List.append_eq_nil.1 hxp with ⟨_, hp⟩
      exact ⟨y, by rw [hp, List.nil_append, hy]⟩
  | cons c r ih =>
    rw [show containsSub (c :: r) pat = (startsWith (c :: r) pat || containsSub r pat) from rfl]
    rw [Bool.or_eq_true, startsWith_iff, ih]
    constructor
    · rintro (⟨y, hy⟩ | ⟨x, y, hxy⟩)
      · exact ⟨[], y, by rw [List.nil_append]; exact hy⟩
      · exact ⟨c :: x, y, by rw [hxy, List.cons_append, List.cons_append]⟩
    · rintro ⟨x, y, hxy⟩
      cases x with
      | nil =>
        exact Or.inl ⟨y, by rw [List.nil_append] at hxy; exact hxy⟩
      | cons d ds =>
        rw [List.cons_append, List.cons_append] at hxy
        injection hxy with h1 h2
        exact Or.inr ⟨ds, y, h2⟩

/-! ### Lemmas about the parameter map (JS `Map` semantics) -/

/-- Lookup after `Map.set`: the new binding shadows, other keys are
untouched. -/
theorem mapLookup_mapSet (m : List (Str × Str)) (k v c : Str) :
    mapLookup (mapSet m k v) c = if k = c then some v else mapLookup m c := by
  induction m with
  | nil => rfl
  | cons p rest ih =>
    obtain ⟨k', v'⟩ := p
    by_cases hk : k' = k
    · subst hk
      rw [show mapSet ((k', v') :: rest) k' v = (k', v) :: rest from by
        show (if k' = k' then (k', v) :: rest else (k', v') :: mapSet rest k' v) = _
        rw [if_pos rfl]]
      rw [show mapLookup ((k', v) :: rest) c = (if k' = c then some v else mapLookup rest c) from rfl]
      rw [show mapLookup ((k', v') :: rest) c = (if k' = c then some v' else mapLookup rest c) from rfl]
      by_cases hc : k' = c
      · rw [if_pos hc, if_pos hc]
      · rw [if_neg hc, if_neg hc, if_neg hc]
    · rw [show mapSet ((k', v') :: rest) k v = (k', v') :: mapSet rest k v from by
        show (if k' = k then (k, v) :: rest else (k', v') :: mapSet rest k v) = _
        rw [if_neg hk]]
      rw [show mapLookup ((k', v') :: mapSet rest k v) c
        = (if k' = c then some v' else mapLookup (mapSet rest k v) c) from rfl]
      rw [show mapLookup ((k', v') :: rest) c = (if k' = c then some v' else mapLookup rest c) from rfl]
      by_cases hc : k' = c
      · have hkc : ¬ k = c := fun he => hk (by rw [he, hc])
        rw [if_pos hc, if_pos hc, if_neg hkc]
      · rw [if_neg hc, if_neg hc, ih]

/-- The keys of an association list. -/
def mapKeys (m : List (Str × Str)) : List Str := m.map Prod.fst

/-- A key present after `Map.set` was present before or is the new one. -/
theorem mem_mapKeys_mapSet (m : List (Str × Str)) (k v a : Str)
    (h : a ∈ mapKeys (mapSet m k v)) : a ∈ mapKeys m ∨ a = k := by
  induction m with
  | nil =>
    rcases List.mem_singleton.1 h with h1
    exact Or.inr h1
  | cons p rest ih =>
    obtain ⟨k', v'⟩ := p
    by_cases hk : k' = k
    · subst hk
      rw [show mapSet ((k', v') :: rest) k' v = (k', v) :: rest from by
        show (if k' = k' then (k', v) :: rest else (k', v') :: mapSet rest k' v) = _
        rw [if_pos rfl]] at h
      rcases List.mem_cons.1 h with h1 | h1
      · exact Or.inr h1
      · exact Or.inl (List.mem_cons_of_mem _ h1)
    · rw [show mapSet ((k', v') :: rest) k v = (k', v') :: mapSet rest k v from by
        show (if k' = k then (k, v) :: rest else (k', v') :: mapSet rest k v) = _
        rw [if_neg hk]] at h
      rcases List.mem_cons.1 h with h1 | h1
      · exact Or.inl (h1 ▸ List.mem_cons_self _ _)
      · rcases ih h1 with h2 | h2
        · exact Or.inl (List.mem_cons_of_mem _ h2)
        · exact Or.inr h2

/-- `Map.set` preserves key uniqueness. -/
theorem nodup_mapKeys_mapSet (m : List (Str × Str)) (k v : Str)
    (h : (mapKeys m).Nodup) : (mapKeys (mapSet m k v)).Nodup := by
  induction m with
  | nil => simp [mapSet, mapKeys]
  | cons p rest ih =>
    obtain ⟨k', v'⟩ := p
    have hnd : k' ∉ mapKeys rest ∧ (mapKeys rest).Nodup := by
      rw [show mapKeys ((k', v') :: rest) = k' :: mapKeys rest from rfl] at h
      exact ⟨(List.nodup_cons.1 h).1, (List.nodup_cons.1 h).2⟩
    by_cases hk : k' = k
    · subst hk
      rw [show mapSet ((k', v') :: rest) k' v = (k', v) :: rest from by
        show (if k' = k' then (k', v) :: rest else (k', v') :: mapSet rest k' v) = _
        rw [if_pos rfl]]
      rw [show mapKeys ((k', v) :: rest) = k' :: mapKeys rest from rfl]
      exact List.nodup_cons.2 ⟨hnd.1, hnd.2⟩
    · rw [show mapSet ((k', v') :: rest) k v = (k', v') :: mapSet rest k v from by
        show (if k' = k then (k, v) :: rest else (k', v') :: mapSet rest k v) = _
        rw [if_neg hk]]
      rw [show mapKeys ((k', v') :: mapSet rest k v) = k' :: mapKeys (mapSet rest k v) from rfl]
      refine List.nodup_cons.2 ⟨?_, ih hnd.2⟩
      intro hmem
      rcases mem_mapKeys_mapSet rest k v k' hmem with h1 | h1
      · exact hnd.1 h1
      · exact hk h1

/-- The last extracted original token whose canonical identifier is `c`
(`none` for the empty canonical identifier, which is never inserted). -/
def lastOriginalFor (toks : List Str) (c : Str) : Option Str :=
  if c = [] then none else toks.reverse.find? (fun o => normalize o = c)

/-- Behaviour of the extraction fold: the binding stored under a
canonical identifier is the LAST token normalizing to it (a JS `Map.set`
overwrites), falling back to the initial map. -/
theorem buildPM_loop (toks : List Str) :
    ∀ (m : List (Str × Str)) (c : Str),
      mapLookup (toks.foldl
        (fun m original =>
          let clean := normalize original
          if clean.isEmpty then m else mapSet m clean original) m) c =
      match lastOriginalFor toks c with
      | some o => some o
      | none => mapLookup m c := by
  induction toks with
  | nil =>
    intro m c
    rw [List.foldl_nil]
    simp [lastOriginalFor]
  | cons t ts ih =>
    intro m c
    rw [List.foldl_cons, ih]
    by_cases hc : c = []
    · have h1 : lastOriginalFor ts c = none := by simp [lastOriginalFor, hc]
      have h2 : lastOriginalFor (t :: ts) c = none := by simp [lastOriginalFor, hc]
      rw [h1, h2]
      show mapLookup (if (normalize t).isEmpty then m else mapSet m (normalize t) t) c
        = mapLookup m c
      by_cases hn : (normalize t).isEmpty = true
      · rw [if_pos hn]
      · rw [if_neg hn, mapLookup_mapSet]
        have hne : ¬ normalize t = c := by
          intro he
          rw [he, hc] at hn
          exact hn rfl
        rw [if_neg hne]
    · cases hts : ts.reverse.find? (fun o => decide (normalize o = c)) with
      | some o =>
        have h1 : lastOriginalFor ts c = some o := by
          simp only [lastOriginalFor, if_neg hc]
          exact hts
        have h2 : lastOriginalFor (t :: ts) c = some o := by
          simp only [lastOriginalFor, if_neg hc]
          rw [show (t :: ts).reverse = ts.reverse ++ [t] from by simp]
          rw [List.find?_append, hts]
          rfl
        rw [h1, h2]
      | none =>
        have h1 : lastOriginalFor ts c = none := by
          simp only [lastOriginalFor, if_neg hc]
          exact hts
        have h2 : lastOriginalFor (t :: ts) c
            = if normalize t = c then some t else none := by
          simp only [lastOriginalFor, if_neg hc]
          rw [show (t :: ts).reverse = ts.reverse ++ [t] from by simp]
          rw [List.find?_append, hts, Option.none_or, List.find?_cons]
          by_cases hnc : normalize t = c
          · rw [if_pos hnc]
            simp [hnc]
          · rw [if_neg hnc]
            simp [hnc]
        rw [h1]
        by_cases hnc : normalize t = c
        · rw [h2, if_pos hnc]
          show mapLookup (if (normalize t).isEmpty then m else mapSet m (normalize t) t) c
            = some t
          have hne : ¬ (normalize t).isEmpty = true := by
            rw [List.isEmpty_iff, hnc]
            exact hc
          rw [if_neg hne, mapLookup_mapSet, if_pos hnc]
        · rw [h2, if_neg hnc]
          show mapLookup (if (normalize t).isEmpty then m else mapSet m (normalize t) t) c
            = mapLookup m c
          by_cases hn : (normalize t).isEmpty = true
          · rw [if_pos hn]
          · rw [if_neg hn, mapLookup_mapSet, if_neg hnc]

/-- The parameter map binds each canonical identifier to the last-seen
original normalizing to it. -/
theorem buildParamMap_lookup (prompt c : Str) :
    mapLookup (buildParamMap prompt) c = lastOriginalFor (extractTokens prompt) c := by
  have h := buildPM_loop (extractTokens prompt) [] c
  rw [show mapLookup ([] : List (Str × Str)) c = none from rfl] at h
  rw [show buildParamMap prompt = (extractTokens prompt).foldl
    (fun m original =>
      let clean := normalize original
      if clean.isEmpty then m else mapSet m clean original) [] from rfl]
  rw [h]
  cases lastOriginalFor (extractTokens prompt) c <;> rfl

/-- Canonical identifiers are unique within a descriptor's parameter
map. -/
theorem buildParamMap_nodup (prompt : Str) : (mapKeys (buildParamMap prompt)).Nodup := by
  have main : ∀ (toks : List Str) (m : List (Str × Str)), (mapKeys m).Nodup →
      (mapKeys (toks.foldl
        (fun m original =>
          let clean := normalize original
          if clean.isEmpty then m else mapSet m clean original) m)).Nodup := by
    intro toks
    induction toks with
    | nil =>
      intro m h
      exact h
    | cons t ts ih =>
      intro m h
      rw [List.foldl_cons]
      apply ih
      show (mapKeys (if (normalize t).isEmpty then m else mapSet m (normalize t) t)).Nodup
      by_cases hn : (normalize t).isEmpty = true
      · rw [if_pos hn]
        exact h
      · rw [if_neg hn]
        exact nodup_mapKeys_mapSet m _ t h
  exact main (extractTokens prompt) [] (by simp [mapKeys])

/-! ### Concrete descriptors used in the claims -/

/-- Placeholder-free fallback tool for `Option.getD` in closed
statements. -/
def noTool : CompiledTool := ⟨[], [], [], []⟩

/-- The spec's round-trip descriptor prompt (claim C2). -/
def brightnessPrompt : Str :=
  str "Example execution: settings put system screen_brightness <param name: level>"

/-- The tool compiled from the round-trip descriptor. -/
def brightnessTool : CompiledTool :=
  (compileDescriptor (str "set_brightness") brightnessPrompt).getD noTool

/-- The spec's duplicate-occurrence descriptor prompt (claim C4). -/
def echoPrompt : Str := str "Example execution: <param name: id> echo <param name: id>"

/-- The tool compiled from the duplicate-occurrence descriptor. -/
def echoTool : CompiledTool := (compileDescriptor (str "echo_tool") echoPrompt).getD noTool

/-- A prompt in which two distinct originals (one with a space, one with
a colon) normalize to the same canonical identifier (claim C3). -/
def collisionPrompt : Str := str "Example execution: x<a b>y <a:b>"

/-- The tool compiled from the collision descriptor. -/
def collisionTool : CompiledTool :=
  (compileDescriptor (str "collide") collisionPrompt).getD noTool

/-- A small valid descriptor file. -/
def vFile1 : TomlFile :=
  ⟨str "t1.toml", some ⟨none, some (str "Example execution: adb devices")⟩⟩

/-- A small valid descriptor file. -/
def vFile2 : TomlFile :=
  ⟨str "t2.toml", some ⟨none, some (str "Example execution: adb shell date")⟩⟩

/-- A small valid descriptor file. -/
def vFile3 : TomlFile :=
  ⟨str "t3.toml", some ⟨none, some (str "Example execution: adb reboot")⟩⟩

/-- A small valid descriptor file. -/
def vFile4 : TomlFile :=
  ⟨str "t4.toml", some ⟨none, some (str "Example execution: adb logcat -d")⟩⟩

/-- A descriptor whose TOML content fails to parse (`toml.parse`
throws). -/
def badFile : TomlFile := ⟨str "bad.toml", none⟩

/-- A parsed descriptor whose prompt has no example-execution line. -/
def skipDoc : TomlDoc := ⟨none, some (str "just a note")⟩

/-- The file carrying `skipDoc`. -/
def skipFile : TomlFile := ⟨str "skip.toml", some skipDoc⟩

/-! ### Claims -/

/-- C1: the spec claims partial-failure isolation — one malformed
structured-data descriptor among five valid ones still yields exactly
four registered tools.  In the code the try/catch wraps the WHOLE
registration loop (lines 149-197), so the parse error aborts every
descriptor after the malformed one: with the malformed file first, zero
tools are registered; only with it last are four registered.  This
theorem evaluates the embedded pass on both orderings, exhibiting the
divergence. -/
theorem claim_C1_pass_level_catch :
    (registerPass (some [badFile, vFile1, vFile2, vFile3, vFile4])).length = 0 ∧
    (registerPass (some [vFile1, vFile2, vFile3, vFile4, badFile])).length = 4 := by
  constructor
  · decide
  · decide

/-- C2 counterexample: the claim says rendering the compiled
round-trip descriptor with the argument map binding `level` to 128
produces the command with 128 substituted.  In the code the canonical
identifier is `__level` (stripping `param name` leaves the colon, which
the whitespace and colon passes turn into two leading underscores), so
the key `level` matches nothing: the placeholder is stripped instead,
and the output differs from the claimed one. -/
theorem claim_C2_counterexample :
    renderTool brightnessTool [(str "level", str "128")]
        = str "settings put system screen_brightness" ∧
    str "settings put system screen_brightness"
        ≠ str "settings put system screen_brightness 128" := by
  constructor
  · decide
  · decide

/-- C2 (amended): the canonical identifier of the round-trip
descriptor's placeholder is `__level`; rendering with the argument map
binding `__level` to 128 produces exactly the claimed command line. -/
theorem claim_C2_amended_roundtrip :
    compileDescriptor (str "set_brightness") brightnessPrompt = some brightnessTool ∧
    buildParamMap brightnessPrompt = [(str "__level", str "param name: level")] ∧
    renderTool brightnessTool [(str "__level", str "128")]
      = str "settings put system screen_brightness 128" := by
  refine ⟨rfl, ?_, ?_⟩
  · decide
  · decide

/-- C3 counterexample: the claim says the FIRST-seen original wins when
two originals normalize to the same canonical identifier.  In the code
`paramMap.set` overwrites the stored value, so the LAST-seen original
(`a:b`) is kept and substituted; the first-seen original (`a b`) is
stripped, not substituted: rendering gives `xy V`, not the `xVy` the
first-seen rule would produce. -/
theorem claim_C3_counterexample :
    extractTokens collisionPrompt = [str "a b", str "a:b"] ∧
    normalize (str "a b") = str "a_b" ∧
    normalize (str "a:b") = str "a_b" ∧
    buildParamMap collisionPrompt = [(str "a_b", str "a:b")] ∧
    str "a:b" ≠ str "a b" ∧
    renderTool collisionTool [(str "a_b", str "V")] = str "xy V" ∧
    str "xy V" ≠ str "xVy" := by
  refine ⟨?_, ?_, ?_, ?_, ?_, ?_, ?_⟩ <;> decide

/-- C3 (amended): canonical identifiers are unique within a
descriptor's parameter map, and the binding stored for each canonical
identifier — hence the original whose bracketed occurrences the render
closure substitutes — is the LAST-seen original normalizing to it. -/
theorem claim_C3_amended_last_seen (prompt : Str) :
    (mapKeys (buildParamMap prompt)).Nodup ∧
    ∀ c, mapLookup (buildParamMap prompt) c = lastOriginalFor (extractTokens prompt) c :=
  ⟨buildParamMap_nodup prompt, fun c => buildParamMap_lookup prompt c⟩

/-- C4 counterexample: the claim renders the duplicate-occurrence
descriptor with the key `id`; the code's canonical identifier is
`__id` (same colon artefact as C2), so nothing is substituted and both
placeholders are stripped, leaving `echo`. -/
theorem claim_C4_counterexample :
    renderTool echoTool [(str "id", str "x")] = str "echo" ∧
    str "echo" ≠ str "x echo x" := by
  constructor
  · decide
  · decide

/-- C4 (amended): with the code's canonical identifier `__id`, every
occurrence of the same original token text is replaced with the same
value: the duplicate-occurrence template renders to exactly
`x echo x`. -/
theorem claim_C4_amended_duplicates :
    buildParamMap echoPrompt = [(str "__id", str "param name: id")] ∧
    renderTool echoTool [(str "__id", str "x")] = str "x echo x" := by
  constructor
  · decide
  · decide

/-- C5: for every descriptor with a well-formed example-execution line,
rendering the compiled tool with an empty argument map yields a command
line with no bracketed placeholder substring, and the result is trimmed
(trimming it again changes nothing). -/
theorem claim_C5_render_empty_clean (name prompt : Str) (t : CompiledTool)
    (_h : compileDescriptor name prompt = some t) :
    NoPlaceholder (renderTool t []) ∧ jsTrim (renderTool t []) = renderTool t [] := by
  refine ⟨render_noPlaceholder t [], ?_⟩
  show jsTrim (jsTrim (stripPH (applyArgs t.paramMap [] t.template)))
    = jsTrim (stripPH (applyArgs t.paramMap [] t.template))
  exact jsTrim_idem _

/-- A compiled example descriptor used to witness C5. -/
def exTool : CompiledTool :=
  (compileDescriptor (str "ex") (str "Example execution: adb <a>")).getD noTool

/-- C5 witness: the C5 theorem applied to a concrete compiled
descriptor. -/
theorem claim_C5_witness :
    NoPlaceholder (renderTool exTool []) ∧
    jsTrim (renderTool exTool []) = renderTool exTool [] :=
  claim_C5_render_empty_clean (str "ex") (str "Example execution: adb <a>") exTool rfl

/-- C6: a parameter is inferred Numeric exactly when its canonical
identifier or its original raw text contains some member of the fixed
keyword list as a contiguous substring; canonical `brightness_level` is
Numeric and canonical `wifi_ssid` is Text. -/
theorem claim_C6_type_inference :
    (∀ clean original : Str,
      inferKind clean original = ParamKind.number ↔
        ∃ k, k ∈ numberKeywords ∧
          ((∃ x y, clean = x ++ k ++ y) ∨ (∃ x y, original = x ++ k ++ y))) ∧
    inferKind (str "brightness_level") (str "brightness level") = ParamKind.number ∧
    inferKind (str "wifi_ssid") (str "wifi ssid") = ParamKind.text := by
  refine ⟨?_, by decide, by decide⟩
  intro clean original
  constructor
  · intro h
    have hb : isNumber clean original = true := by
      by_cases hn : isNumber clean original = true
      · exact hn
      · unfold inferKind at h
        rw [if_neg hn] at h
        exact absurd h (by decide)
    rcases List.any_eq_true.1 hb with ⟨k, hk, hp⟩
    rw [Bool.or_eq_true] at hp
    rcases hp with h1 | h1
    · exact ⟨k, hk, Or.inl ((containsSub_iff clean k).1 h1)⟩
    · exact ⟨k, hk, Or.inr ((containsSub_iff original k).1 h1)⟩
  · rintro ⟨k, hk, hcase⟩
    have hb : isNumber clean original = true := by
      apply List.any_eq_true.2
      refine ⟨k, hk, ?_⟩
      rw [Bool.or_eq_true]
      rcases hcase with hin | hin
      · exact Or.inl ((containsSub_iff clean k).2 hin)
      · exact Or.inr ((containsSub_iff original k).2 hin)
    unfold inferKind
    rw [if_pos hb]

/-- C7: wrapping of the execution collaborator's outcome.  A successful
execution is never error-flagged and its text is the stdout when
non-empty, else the stderr when non-empty, else the fixed sentinel; a
thrown failure becomes an error-flagged result whose text contains the
failure message and any captured stderr as substrings; only a thrown
failure can produce an error-flagged result, and the wrapper is a total
function — no outcome escapes as an exception. -/
theorem claim_C7_execution_wrapping :
    (∀ so se : Str, so ≠ [] → executeCommandAsTool (.ok so se) = ⟨so, false⟩) ∧
    (∀ se : Str, se ≠ [] → executeCommandAsTool (.ok [] se) = ⟨se, false⟩) ∧
    executeCommandAsTool (.ok [] []) = ⟨noOutputMsg, false⟩ ∧
    (∀ (m : Str) (se : Option Str),
      (executeCommandAsTool (.err m se)).isError = true ∧
      (∃ x y, (executeCommandAsTool (.err m se)).text = x ++ m ++ y) ∧
      ∀ s, se = some s → ∃ x y, (executeCommandAsTool (.err m se)).text = x ++ s ++ y) ∧
    ∀ o, (executeCommandAsTool o).isError = true → ∃ m se, o = ExecOutcome.err m se := by
  refine ⟨?_, ?_, rfl, ?_, ?_⟩
  · intro so se h
    cases so with
    | nil => exact absurd rfl h
    | cons c r => rfl
  · intro se h
    cases se with
    | nil => exact absurd rfl h
    | cons c r => rfl
  · intro m se
    refine ⟨rfl, ⟨errPre, '\n' :: se.getD [], rfl⟩, ?_⟩
    intro s hs
    subst hs
    refine ⟨errPre ++ m ++ ['\n'], [], ?_⟩
    show errPre ++ m ++ '\n' :: s = (errPre ++ m ++ ['\n']) ++ s ++ []
    simp [List.append_assoc]
  · intro o h
    cases o with
    | ok so se => exact absurd h (by simp [executeCommandAsTool])
    | err m se => exact ⟨m, se, rfl⟩

/-- C7 witness: the C7 theorem applied at concrete outcomes. -/
theorem claim_C7_witness :
    executeCommandAsTool (.ok (str "out") (str "warn")) = ⟨str "out", false⟩ ∧
    executeCommandAsTool (.ok [] (str "warn")) = ⟨str "warn", false⟩ ∧
    ∃ x y, (executeCommandAsTool (.err (str "boom") (some (str "oops")))).text
      = x ++ str "boom" ++ y :=
  ⟨claim_C7_execution_wrapping.1 (str "out") (str "warn") (by decide),
   claim_C7_execution_wrapping.2.1 (str "warn") (by decide),
   (claim_C7_execution_wrapping.2.2.2.1 (str "boom") (some (str "oops"))).2.1⟩

/-- C8: when the descriptor directory does not exist, the guard makes
the loop body unreachable: the startup pass registers zero dynamic
tools, and (the embedded pass being a total function) raises no
error. -/
theorem claim_C8_absent_directory : registerPass none = [] := rfl

/-- C9: a parsed descriptor whose prompt has no example-execution line
compiles to no tool, and the loop continues with the remaining
descriptors (the skip is a plain `continue`, not the abort of the
parse-failure path). -/
theorem claim_C9_incomplete_skip (f : TomlFile) (rest : List TomlFile) (doc : TomlDoc)
    (hext : extname f.name = str ".toml") (hparse : f.parsed = some doc)
    (hnoexec : findExec (jsOr doc.prompt []) = none) :
    compileDescriptor (toolNameOf f.name) (jsOr doc.prompt []) = none ∧
    registerGo (f :: rest) = registerGo rest := by
  have hcomp : compileDescriptor (toolNameOf f.name) (jsOr doc.prompt []) = none := by
    unfold compileDescriptor
    rw [hnoexec]
  refine ⟨hcomp, ?_⟩
  cases f with
  | mk nm pr =>
    simp only at hext hparse
    subst hparse
    simp [registerGo, hext, hcomp]

/-- C9 witness: the C9 theorem applied to a concrete incomplete
descriptor. -/
theorem claim_C9_witness :
    compileDescriptor (toolNameOf skipFile.name) (jsOr skipDoc.prompt []) = none ∧
    registerGo [skipFile] = registerGo [] :=
  claim_C9_incomplete_skip skipFile [] skipDoc (by decide) rfl (by decide)

/-- C10: for every compiled tool and every argument map — including maps
whose values contain bracketed text — the render output contains no
placeholder substring, because the stripping pass runs after all
substitutions; in particular bracketed text supplied inside an argument
value is not preserved verbatim. -/
theorem claim_C10_no_bracket_injection :
    (∀ (t : CompiledTool) (args : List (Str × Str)),
      NoPlaceholder (renderTool t args)) ∧
    containsSub (renderTool echoTool [(str "__id", str "a <x> b")]) (str "<x>") = false :=
  ⟨fun t args => render_noPlaceholder t args, by decide⟩

end McpAdb

